import Mathlib

/-!
Verification development for the graph-explorer curve-analysis engine
(`src/main.py`).  The Python source is shallowly embedded:

* IEEE-754 doubles are modelled by `FVal`: an exact rational for every
  finite double, plus `nan`, `inf`, `ninf`.  Rounding is abstracted
  (finite doubles are rationals and double arithmetic is modelled
  exactly); the non-finite propagation rules follow IEEE-754 as NumPy
  implements them, except that signed zero is collapsed to `0`.
* NumPy vectors are Lean lists.
* Python exceptions are `Except String`; a function that the source
  wraps in `try/except` is modelled with an explicit `Except` result.
-/

/-- Model of a double value: an exact rational, or one of the
non-finite values NaN, +Inf, -Inf. -/
inductive FVal where
  | fin (q : ℚ)
  | nan
  | inf
  | ninf
deriving DecidableEq, Repr

/-- Negation of a double. -/
def fneg : FVal → FVal
  | .fin q => .fin (-q)
  | .nan => .nan
  | .inf => .ninf
  | .ninf => .inf

/-- Addition of doubles: NaN propagates, Inf + (-Inf) is NaN. -/
def fadd : FVal → FVal → FVal
  | .nan, _ => .nan
  | _, .nan => .nan
  | .inf, .ninf => .nan
  | .ninf, .inf => .nan
  | .inf, _ => .inf
  | _, .inf => .inf
  | .ninf, _ => .ninf
  | _, .ninf => .ninf
  | .fin a, .fin b => .fin (a + b)

/-- Subtraction of doubles, defined as addition of the negation
(equivalent to the IEEE rules case by case). -/
def fsub (a b : FVal) : FVal := fadd a (fneg b)

/-- Multiplication of doubles: NaN propagates, Inf times zero is NaN. -/
def fmul : FVal → FVal → FVal
  | .nan, _ => .nan
  | _, .nan => .nan
  | .inf, .inf => .inf
  | .inf, .ninf => .ninf
  | .ninf, .inf => .ninf
  | .ninf, .ninf => .inf
  | .inf, .fin b => if 0 < b then .inf else if b < 0 then .ninf else .nan
  | .fin a, .inf => if 0 < a then .inf else if a < 0 then .ninf else .nan
  | .ninf, .fin b => if 0 < b then .ninf else if b < 0 then .inf else .nan
  | .fin a, .ninf => if 0 < a then .ninf else if a < 0 then .inf else .nan
  | .fin a, .fin b => .fin (a * b)

/-- Division of doubles under NumPy (array) semantics: NaN propagates,
Inf / Inf is NaN, finite / 0 gives a signed infinity (0 / 0 gives NaN).
Signed zero is collapsed, so the sign of x / 0 is the sign of x. -/
def fdiv : FVal → FVal → FVal
  | .nan, _ => .nan
  | _, .nan => .nan
  | .inf, .inf => .nan
  | .inf, .ninf => .nan
  | .ninf, .inf => .nan
  | .ninf, .ninf => .nan
  | .inf, .fin b => if 0 ≤ b then .inf else .ninf
  | .ninf, .fin b => if 0 ≤ b then .ninf else .inf
  | .fin _, .inf => .fin 0
  | .fin _, .ninf => .fin 0
  | .fin a, .fin b =>
    if b = 0 then (if a = 0 then .nan else if 0 < a then .inf else .ninf)
    else .fin (a / b)

/-- Absolute value of a double. -/
def fabs : FVal → FVal
  | .fin q => .fin |q|
  | .nan => .nan
  | .inf => .inf
  | .ninf => .inf

/-- IEEE strict less-than on doubles: any comparison with NaN is false. -/
def fltB : FVal → FVal → Bool
  | .nan, _ => false
  | _, .nan => false
  | .ninf, .ninf => false
  | .ninf, _ => true
  | _, .ninf => false
  | .inf, _ => false
  | .fin _, .inf => true
  | .fin a, .fin b => decide (a < b)

/-- Sort-order comparison used to model the NumPy sorting convention:
NaN compares greater than everything, so NaN values sort to the end. -/
def fleSort (a b : FVal) : Bool :=
  if a = .nan then b = .nan
  else if b = .nan then true
  else !(fltB b a)

/-- Finiteness test (np.isfinite): true exactly on rational values. -/
def isFiniteF : FVal → Bool
  | .fin _ => true
  | _ => false

/-- Extract the rational of a finite value (junk 0 on non-finite input;
only ever applied to values that passed the finiteness filter). -/
def toQ : FVal → ℚ
  | .fin q => q
  | _ => 0

/-- Insert an element into a list in front of the first element it
compares no greater than (the inner step of insertion sort). -/
def insertLe (le : α → α → Bool) (a : α) : List α → List α
  | [] => [a]
  | b :: t => if le a b then a :: b :: t else b :: insertLe le a t

/-- Insertion sort.  Used as the executable model of NumPy argsort:
only the output order matters to the claims proved here, and for tied
keys this model keeps the original relative order. -/
def isortBy (le : α → α → Bool) : List α → List α
  | [] => []
  | a :: t => insertLe le a (isortBy le t)

theorem length_insertLe (le : α → α → Bool) (a : α) (l : List α) :
    (insertLe le a l).length = l.length + 1 := by
  induction l with
  | nil => rfl
  | cons b t ih =>
    simp only [insertLe]
    split <;> simp [ih]

theorem length_isortBy (le : α → α → Bool) (l : List α) :
    (isortBy le l).length = l.length := by
  induction l with
  | nil => rfl
  | cons a t ih => simp [isortBy, length_insertLe, ih]

theorem mem_insertLe (le : α → α → Bool) (a b : α) (l : List α) :
    b ∈ insertLe le a l ↔ b = a ∨ b ∈ l := by
  induction l with
  | nil => simp [insertLe]
  | cons c t ih =>
    simp only [insertLe]
    split
    · simp
    · simp only [List.mem_cons, ih]
      tauto

theorem mem_isortBy (le : α → α → Bool) (a : α) (l : List α) :
    a ∈ isortBy le l ↔ a ∈ l := by
  induction l with
  | nil => simp [isortBy]
  | cons c t ih =>
    simp only [isortBy, mem_insertLe, ih, List.mem_cons]

theorem perm_insertLe (le : α → α → Bool) (a : α) (l : List α) :
    List.Perm (insertLe le a l) (a :: l) := by
  induction l with
  | nil => simp [insertLe]
  | cons b t ih =>
    simp only [insertLe]
    split
    · exact List.Perm.refl _
    · exact (ih.cons b).trans (List.Perm.swap a b t)

theorem perm_isortBy (le : α → α → Bool) (l : List α) :
    List.Perm (isortBy le l) l := by
  induction l with
  | nil => simp [isortBy]
  | cons a t ih => exact (perm_insertLe le a (isortBy le t)).trans (ih.cons a)

/-- Minimum value of a rational list (0 on the empty list; only used on
non-empty lists). -/
def listMinQ : List ℚ → ℚ
  | [] => 0
  | [a] => a
  | a :: b :: t => min a (listMinQ (b :: t))

theorem listMinQ_mem (l : List ℚ) (h : l ≠ []) : listMinQ l ∈ l := by
  induction l with
  | nil => exact absurd rfl h
  | cons a t ih =>
    cases t with
    | nil => simp [listMinQ]
    | cons b u =>
      simp only [listMinQ]
      rcases le_total a (listMinQ (b :: u)) with hle | hle
      · simp [min_eq_left hle]
      · have := ih (by simp)
        simp only [min_eq_right hle, List.mem_cons] at this ⊢
        tauto

theorem listMinQ_le (l : List ℚ) (a : ℚ) (h : a ∈ l) : listMinQ l ≤ a := by
  induction l with
  | nil => simp at h
  | cons b t ih =>
    cases t with
    | nil =>
      simp only [List.mem_cons, List.not_mem_nil, or_false] at h
      simp [listMinQ, h]
    | cons c u =>
      simp only [listMinQ]
      rcases List.mem_cons.mp h with rfl | hm
      · exact min_le_left _ _
      · exact le_trans (min_le_right _ _) (ih hm)

theorem getD_cons_succ' (a : α) (l : List α) (j : ℕ) (d : α) :
    (a :: l).getD (j + 1) d = l.getD j d := rfl

theorem getD_map' (f : α → β) (l : List α) (j : ℕ) (h : j < l.length)
    (dα : α) (dβ : β) : (l.map f).getD j dβ = f (l.getD j dα) := by
  induction l generalizing j with
  | nil => simp at h
  | cons a t ih =>
    cases j with
    | zero => rfl
    | succ k =>
      simp only [List.length_cons, Nat.succ_lt_succ_iff] at h
      simpa using ih k h

theorem getD_indexOf (l : List ℚ) (a : ℚ) (h : a ∈ l) (d : ℚ) :
    l.getD (l.indexOf a) d = a := by
  induction l with
  | nil => simp at h
  | cons b t ih =>
    by_cases hba : b = a
    · subst hba; simp [List.indexOf_cons_self]
    · have hne : (b == a) = false := by simp [hba]
      have hmem : a ∈ t := by
        rcases List.mem_cons.mp h with h' | h'
        · exact absurd h'.symm hba
        · exact h'
      simp only [List.indexOf_cons, hne, cond_false]
      simpa using ih hmem

theorem indexOf_lt_length' (l : List ℚ) (a : ℚ) (h : a ∈ l) :
    l.indexOf a < l.length := List.indexOf_lt_length.mpr h

theorem getD_ne_of_lt_indexOf (l : List ℚ) (a : ℚ) (j : ℕ) (d : ℚ)
    (h : j < l.indexOf a) : l.getD j d ≠ a := by
  induction l generalizing j with
  | nil => simp [List.indexOf_nil] at h
  | cons b t ih =>
    by_cases hba : b = a
    · subst hba; simp [List.indexOf_cons_self] at h
    · have hne : (b == a) = false := by simp [hba]
      simp only [List.indexOf_cons, hne, cond_false] at h
      cases j with
      | zero => simpa using hba
      | succ k =>
        simp only [Nat.succ_lt_succ_iff] at h
        simpa using ih k h

theorem mem_range'_iff (n s m : ℕ) :
    m ∈ List.range' s n ↔ s ≤ m ∧ m < s + n := by
  induction n generalizing s with
  | zero => simp [List.range']
  | succ k ih =>
    simp only [List.range', List.mem_cons, ih]
    omega

theorem nodup_range'_one (n s : ℕ) : (List.range' s n).Nodup := by
  induction n generalizing s with
  | zero => simp [List.range']
  | succ k ih =>
    simp only [List.range', List.nodup_cons]
    refine ⟨fun hm => ?_, ih (s + 1)⟩
    have := (mem_range'_iff k (s + 1) s).mp hm
    omega

theorem length_range'_one (n s : ℕ) : (List.range' s n).length = n := by
  induction n generalizing s with
  | zero => rfl
  | succ k ih => simp only [List.range', List.length_cons, ih]

theorem map_getD_range'_shift (a : α) (t : List α) (d : α) :
    ∀ (k s : ℕ), (List.range' (s + 1) k).map (fun j => (a :: t).getD j d) =
      (List.range' s k).map (fun j => t.getD j d) := by
  intro k
  induction k with
  | zero => intro s; rfl
  | succ m ih =>
    intro s
    simp only [List.range', List.map_cons, getD_cons_succ']
    exact congrArg _ (ih (s + 1))

/-- A contiguous slice of a list, written with drop and take as in the
source, equals the values of the list at the index interval. -/
theorem drop_take_eq_map_range' (l : List α) (lo k : ℕ) (d : α)
    (h : lo + k ≤ l.length) :
    (l.drop lo).take k = (List.range' lo k).map (fun j => l.getD j d) := by
  induction l generalizing lo k with
  | nil =>
    have hk : k = 0 := by simp at h; omega
    have hlo : lo = 0 := by simp at h; omega
    subst hk; subst hlo; rfl
  | cons a t ih =>
    cases lo with
    | zero =>
      cases k with
      | zero => rfl
      | succ m =>
        simp only [List.drop_zero, List.take_succ_cons, List.range',
          List.map_cons, List.getD_cons_zero]
        have hm : 0 + m ≤ t.length := by simp at h ⊢; omega
        have := ih 0 m hm
        simp only [List.drop_zero] at this
        rw [this, map_getD_range'_shift]
    | succ p =>
      simp only [List.drop_succ_cons]
      have hp : p + k ≤ t.length := by simp at h; omega
      rw [ih p k hp, map_getD_range'_shift]

/-- There exist two different values in the list (the negation of
"fewer than 2 distinct values"). -/
def hasTwoDistinct (l : List ℚ) : Prop := ∃ a ∈ l, ∃ b ∈ l, a ≠ b

instance (l : List ℚ) : Decidable (hasTwoDistinct l) := by
  unfold hasTwoDistinct; infer_instance

/-- Number of distinct values in a list, the model of len(np.unique(v)). -/
def distinctCount (l : List ℚ) : ℕ := l.dedup.length

theorem distinctCount_lt_two_iff (l : List ℚ) :
    distinctCount l < 2 ↔ ¬ hasTwoDistinct l := by
  unfold distinctCount hasTwoDistinct
  constructor
  · intro h ⟨a, ha, b, hb, hab⟩
    have ha' : a ∈ l.dedup := List.mem_dedup.mpr ha
    have hb' : b ∈ l.dedup := List.mem_dedup.mpr hb
    match hd : l.dedup with
    | [] => rw [hd] at ha'; simp at ha'
    | [c] =>
      rw [hd] at ha' hb'
      simp only [List.mem_singleton] at ha' hb'
      exact hab (ha'.trans hb'.symm)
    | c :: d :: t => rw [hd] at h; simp at h; omega
  · intro h
    by_contra hlen
    push_neg at h hlen
    match hd : l.dedup with
    | [] => rw [hd] at hlen; simp at hlen
    | [c] => rw [hd] at hlen; simp at hlen
    | c :: d :: t =>
      have hnd : l.dedup.Nodup := l.nodup_dedup
      rw [hd] at hnd
      have hcd : c ≠ d := by
        intro hcdeq
        subst hcdeq
        simp at hnd
      have hc : c ∈ l := List.mem_dedup.mp (by rw [hd]; simp)
      have hdm : d ∈ l := List.mem_dedup.mp (by rw [hd]; simp)
      exact hcd (h c hc d hdm)

theorem two_le_distinctCount_iff (l : List ℚ) :
    2 ≤ distinctCount l ↔ hasTwoDistinct l := by
  rw [← not_lt]
  constructor
  · intro h
    by_contra hh
    exact h ((distinctCount_lt_two_iff l).mpr hh)
  · intro h hlt
    exact (distinctCount_lt_two_iff l).mp hlt h

/-- Sum of the squares of a rational list. -/
def sumSq (l : List ℚ) : ℚ := (l.map (fun v => v * v)).sum

theorem sum_map_sq_diff (a : ℚ) (t : List ℚ) :
    (t.map (fun b => (a - b) * (a - b))).sum =
      (t.length : ℚ) * (a * a) - 2 * a * t.sum + sumSq t := by
  induction t with
  | nil => simp [sumSq]
  | cons c u ih =>
    simp only [List.map_cons, List.sum_cons, sumSq, List.length_cons] at ih ⊢
    push_cast
    rw [ih]
    ring

theorem var_expand (a : ℚ) (t : List ℚ) :
    ((t.length : ℚ) + 1) * (a * a + sumSq t) - (a + t.sum) ^ 2 =
      ((t.length : ℚ) * sumSq t - t.sum ^ 2) +
        (t.map (fun b => (a - b) * (a - b))).sum := by
  rw [sum_map_sq_diff]
  ring

theorem varQ_nonneg (l : List ℚ) :
    0 ≤ (l.length : ℚ) * sumSq l - l.sum ^ 2 := by
  induction l with
  | nil => simp [sumSq]
  | cons a t ih =>
    have hsq : 0 ≤ (t.map (fun b => (a - b) * (a - b))).sum := by
      apply List.sum_nonneg
      intro x hx
      rcases List.mem_map.mp hx with ⟨b, _, rfl⟩
      exact mul_self_nonneg _
    have := var_expand a t
    simp only [List.length_cons, sumSq, List.map_cons, List.sum_cons]
    push_cast
    calc (0:ℚ) ≤ ((t.length : ℚ) * sumSq t - t.sum ^ 2) +
        (t.map (fun b => (a - b) * (a - b))).sum := add_nonneg ih hsq
    _ = ((t.length : ℚ) + 1) * (a * a + sumSq t) - (a + t.sum) ^ 2 :=
        (var_expand a t).symm
    _ = ((t.length : ℚ) + 1) * (a * a + (t.map fun v => v * v).sum) -
        (a + t.sum) ^ 2 := by simp [sumSq]

theorem varQ_pos (l : List ℚ) (a b : ℚ) (ha : a ∈ l) (hb : b ∈ l)
    (hab : a ≠ b) : 0 < (l.length : ℚ) * sumSq l - l.sum ^ 2 := by
  induction l with
  | nil => simp at ha
  | cons c t ih =>
    have key : ∀ u v : ℚ, u ∈ t → v ≠ u →
        0 < ((t.length : ℚ) + 1) * (v * v + sumSq t) - (v + t.sum) ^ 2 := by
      intro u v hu hvu
      rw [var_expand v t]
      have hterm : (v - u) * (v - u) ∈ t.map (fun b => (v - b) * (v - b)) :=
        List.mem_map_of_mem _ hu
      have hpos : 0 < (v - u) * (v - u) := by
        have : v - u ≠ 0 := sub_ne_zero_of_ne hvu
        exact mul_self_pos.mpr this
      have hsum : (v - u) * (v - u) ≤
          (t.map (fun b => (v - b) * (v - b))).sum := by
        apply List.single_le_sum _ _ hterm
        intro x hx
        rcases List.mem_map.mp hx with ⟨w, _, rfl⟩
        exact mul_self_nonneg _
      have := varQ_nonneg t
      linarith
    rcases List.mem_cons.mp ha with rfl | hat
    · rcases List.mem_cons.mp hb with rfl | hbt
      · exact absurd rfl hab
      · have := key b a hbt hab
        simp only [List.length_cons, sumSq, List.map_cons, List.sum_cons]
        push_cast
        calc (0:ℚ) < ((t.length : ℚ) + 1) * (a * a + sumSq t) -
            (a + t.sum) ^ 2 := this
        _ = ((t.length : ℚ) + 1) * (a * a + (t.map fun v => v * v).sum) -
            (a + t.sum) ^ 2 := by simp [sumSq]
    · rcases List.mem_cons.mp hb with rfl | hbt
      · have := key a b hat (Ne.symm hab)
        simp only [List.length_cons, sumSq, List.map_cons, List.sum_cons]
        push_cast
        calc (0:ℚ) < ((t.length : ℚ) + 1) * (b * b + sumSq t) -
            (b + t.sum) ^ 2 := this
        _ = ((t.length : ℚ) + 1) * (b * b + (t.map fun v => v * v).sum) -
            (b + t.sum) ^ 2 := by simp [sumSq]
      · have hvt := ih hat hbt
        have hsq : 0 ≤ (t.map (fun w => (c - w) * (c - w))).sum := by
          apply List.sum_nonneg
          intro x hx
          rcases List.mem_map.mp hx with ⟨w, _, rfl⟩
          exact mul_self_nonneg _
        have := var_expand c t
        simp only [List.length_cons, sumSq, List.map_cons, List.sum_cons]
        push_cast
        calc (0:ℚ) < ((t.length : ℚ) * sumSq t - t.sum ^ 2) +
            (t.map (fun w => (c - w) * (c - w))).sum := by linarith
        _ = ((t.length : ℚ) + 1) * (c * c + sumSq t) - (c + t.sum) ^ 2 :=
            (var_expand c t).symm
        _ = ((t.length : ℚ) + 1) * (c * c + (t.map fun v => v * v).sum) -
            (c + t.sum) ^ 2 := by simp [sumSq]

theorem getD_mem' (l : List α) (j : ℕ) (h : j < l.length) (d : α) :
    l.getD j d ∈ l := by
  induction l generalizing j with
  | nil => simp at h
  | cons a t ih =>
    cases j with
    | zero => simp
    | succ k =>
      simp only [List.length_cons, Nat.succ_lt_succ_iff] at h
      simp only [getD_cons_succ', List.mem_cons]
      exact Or.inr (ih k h)

/-- Comparison on sample pairs by x value, the key of the argsort in
the source. -/
def pairLeB (p q : ℚ × ℚ) : Bool := decide (p.1 ≤ q.1)

/-- Model of sorting the samples by ascending x: the source computes
order = np.argsort(x) and reindexes x and y by it, which is the same as
sorting the (x, y) pairs by their x component. -/
def sortPairsQ (ps : List (ℚ × ℚ)) : List (ℚ × ℚ) := isortBy pairLeB ps

theorem pairwise_insertLe_pairLe (a : ℚ × ℚ) (l : List (ℚ × ℚ))
    (h : l.Pairwise (fun p q => p.1 ≤ q.1)) :
    (insertLe pairLeB a l).Pairwise (fun p q => p.1 ≤ q.1) := by
  induction l with
  | nil => simp [insertLe]
  | cons b t ih =>
    rcases List.pairwise_cons.mp h with ⟨hbt, ht⟩
    by_cases hab : a.1 ≤ b.1
    · have hc : pairLeB a b = true := by simp [pairLeB, hab]
      simp only [insertLe, hc, if_true]
      refine List.pairwise_cons.mpr ⟨?_, h⟩
      intro q hq
      rcases List.mem_cons.mp hq with rfl | hqt
      · exact hab
      · exact le_trans hab (hbt q hqt)
    · have hc : pairLeB a b = false := by simp [pairLeB, hab]
      simp only [insertLe, hc, if_false, Bool.false_eq_true]
      refine List.pairwise_cons.mpr ⟨?_, ih ht⟩
      intro q hq
      rcases (mem_insertLe pairLeB a q t).mp hq with rfl | hqt
      · exact le_of_not_le hab
      · exact hbt q hqt

theorem sorted_sortPairsQ (ps : List (ℚ × ℚ)) :
    (sortPairsQ ps).Pairwise (fun p q => p.1 ≤ q.1) := by
  unfold sortPairsQ
  induction ps with
  | nil => simp [isortBy]
  | cons a t ih => exact pairwise_insertLe_pairLe a (isortBy pairLeB t) ih

theorem perm_sortPairsQ (ps : List (ℚ × ℚ)) :
    List.Perm (sortPairsQ ps) ps := perm_isortBy pairLeB ps

/-- Index of the first minimum of a rational list, the model of
np.argmin, whose documented behaviour is to return the first index at
which the minimum value occurs. -/
def argminIdxQ (l : List ℚ) : ℕ := l.indexOf (listMinQ l)

theorem argminIdxQ_lt_length (l : List ℚ) (h : l ≠ []) :
    argminIdxQ l < l.length :=
  indexOf_lt_length' l (listMinQ l) (listMinQ_mem l h)

theorem argminIdxQ_getD (l : List ℚ) (h : l ≠ []) (d : ℚ) :
    l.getD (argminIdxQ l) d = listMinQ l :=
  getD_indexOf l (listMinQ l) (listMinQ_mem l h) d

theorem argminIdxQ_le (l : List ℚ) (h : l ≠ []) (j : ℕ)
    (hj : j < l.length) (d : ℚ) :
    l.getD (argminIdxQ l) d ≤ l.getD j d := by
  rw [argminIdxQ_getD l h d]
  exact listMinQ_le l _ (getD_mem' l j hj d)

theorem argminIdxQ_lt_of_earlier (l : List ℚ) (h : l ≠ []) (j : ℕ)
    (hj : j < argminIdxQ l) (d : ℚ) :
    l.getD (argminIdxQ l) d < l.getD j d := by
  have hjl : j < l.length :=
    lt_trans hj (argminIdxQ_lt_length l h)
  have hne : l.getD j d ≠ listMinQ l :=
    getD_ne_of_lt_indexOf l (listMinQ l) j d hj
  have hle : listMinQ l ≤ l.getD j d := listMinQ_le l _ (getD_mem' l j hjl d)
  rw [argminIdxQ_getD l h d]
  exact lt_of_le_of_ne hle (Ne.symm hne)

/-- Mean of a rational list (np.mean on finite data). -/
def meanQ (l : List ℚ) : ℚ := l.sum / (l.length : ℚ)

/-- Degree-1 fit np.polyfit(xs, ys, 1), returning (slope, intercept).
With at least two distinct x values the least-squares solution is
unique and given by the closed-form normal-equation formulas.  On
rank-deficient input (all x equal to a common value a) np.polyfit
scales the Vandermonde columns to unit Euclidean norm, takes the
minimum-norm lstsq solution of the scaled rank-1 system, and divides
the scales back out, which works out to slope mean(ys) / (2 a) and
intercept mean(ys) / 2.  For a = 0 that scaling divides the zero
column by zero and the library outcome is an invalid-value artefact
(typically an SVD convergence error); that corner, where the library
returns no number, is outside the faithful domain of this total model
and takes the rational division-by-zero convention. -/
def polyfit1 (xs ys : List ℚ) : ℚ × ℚ :=
  if hasTwoDistinct xs then
    let n : ℚ := (xs.length : ℚ)
    let sx := xs.sum
    let sy := ys.sum
    let sxx := sumSq xs
    let sxy := ((xs.zip ys).map (fun p => p.1 * p.2)).sum
    let d := n * sxx - sx * sx
    ((n * sxy - sx * sy) / d, (sxx * sy - sx * sxy) / d)
  else (meanQ ys / (2 * xs.headD 0), meanQ ys / 2)

/-- Sum of the fit residuals of a pair list. -/
def residSum (P : List (ℚ × ℚ)) (m b : ℚ) : ℚ :=
  (P.map (fun p => p.2 - (m * p.1 + b))).sum

/-- Sum of the fit residuals weighted by x. -/
def xResidSum (P : List (ℚ × ℚ)) (m b : ℚ) : ℚ :=
  (P.map (fun p => p.1 * (p.2 - (m * p.1 + b)))).sum

/-- A slope m is a least-squares slope for the point list P when some
intercept b together with it satisfies both normal equations of the
degree-1 least-squares problem. -/
def isLSQSlope (P : List (ℚ × ℚ)) (m : ℚ) : Prop :=
  ∃ b, residSum P m b = 0 ∧ xResidSum P m b = 0

theorem residSum_eq (P : List (ℚ × ℚ)) (m b : ℚ) :
    residSum P m b =
      (P.map Prod.snd).sum -
        (m * (P.map Prod.fst).sum + (P.length : ℚ) * b) := by
  induction P with
  | nil => simp [residSum]
  | cons p t ih =>
    simp only [residSum, List.map_cons, List.sum_cons, List.length_cons] at ih ⊢
    rw [ih]
    push_cast
    ring

theorem xResidSum_eq (P : List (ℚ × ℚ)) (m b : ℚ) :
    xResidSum P m b =
      (P.map (fun p => p.1 * p.2)).sum -
        (m * sumSq (P.map Prod.fst) + b * (P.map Prod.fst).sum) := by
  induction P with
  | nil => simp [xResidSum, sumSq]
  | cons p t ih =>
    simp only [xResidSum, sumSq, List.map_cons, List.sum_cons,
      List.map_map] at ih ⊢
    rw [ih]
    ring

theorem zip_map_fst_snd (P : List (α × β)) :
    (P.map Prod.fst).zip (P.map Prod.snd) = P := by
  induction P with
  | nil => rfl
  | cons p t ih => simp [ih]

/-- The fit coefficients satisfy both normal equations of the
least-squares problem whenever the x values are not all equal (the
determinant of the normal system is then non-zero and the closed form
applies). -/
theorem polyfit1_normalEqs (P : List (ℚ × ℚ))
    (hW : hasTwoDistinct (P.map Prod.fst)) :
    residSum P (polyfit1 (P.map Prod.fst) (P.map Prod.snd)).1
        (polyfit1 (P.map Prod.fst) (P.map Prod.snd)).2 = 0 ∧
      xResidSum P (polyfit1 (P.map Prod.fst) (P.map Prod.snd)).1
        (polyfit1 (P.map Prod.fst) (P.map Prod.snd)).2 = 0 := by
  have hvar : 0 < (P.length : ℚ) * sumSq (P.map Prod.fst) -
      (P.map Prod.fst).sum * (P.map Prod.fst).sum := by
    obtain ⟨a, ha, b, hb, hab⟩ := hW
    have := varQ_pos (P.map Prod.fst) a b ha hb hab
    rw [List.length_map, pow_two] at this
    exact this
  have hD : (P.length : ℚ) * sumSq (P.map Prod.fst) -
      (P.map Prod.fst).sum * (P.map Prod.fst).sum ≠ 0 := ne_of_gt hvar
  have hlen : ((P.map Prod.fst).length : ℚ) = (P.length : ℚ) := by
    simp
  have hzip : (P.map Prod.fst).zip (P.map Prod.snd) = P :=
    zip_map_fst_snd P
  have hmapmul :
      (((P.map Prod.fst).zip (P.map Prod.snd)).map (fun p => p.1 * p.2)).sum =
        (P.map (fun p => p.1 * p.2)).sum := by rw [hzip]
  have hfit : polyfit1 (P.map Prod.fst) (P.map Prod.snd) =
      ((((P.map Prod.fst).length : ℚ) *
          (((P.map Prod.fst).zip (P.map Prod.snd)).map
            (fun p => p.1 * p.2)).sum -
          (P.map Prod.fst).sum * (P.map Prod.snd).sum) /
        (((P.map Prod.fst).length : ℚ) * sumSq (P.map Prod.fst) -
          (P.map Prod.fst).sum * (P.map Prod.fst).sum),
       (sumSq (P.map Prod.fst) * (P.map Prod.snd).sum -
          (P.map Prod.fst).sum *
            (((P.map Prod.fst).zip (P.map Prod.snd)).map
              (fun p => p.1 * p.2)).sum) /
        (((P.map Prod.fst).length : ℚ) * sumSq (P.map Prod.fst) -
          (P.map Prod.fst).sum * (P.map Prod.fst).sum)) := by
    unfold polyfit1
    rw [if_pos hW]
  rw [hfit]
  simp only [residSum_eq, xResidSum_eq, hlen, hmapmul]
  constructor
  · field_simp
    ring
  · field_simp
    ring

/-- Final branch ladder of slope_at_point: if the window has fewer than
2 distinct x values, fall back to the full sorted arrays when those
have at least 2 distinct x values and to NaN (none) otherwise;
otherwise fit the window.  The polyfit call is modelled by the exact
closed form `polyfit1`, which cannot fail on rational data with two
distinct x values, so the try/except of the source is not reachable
here (the float-level model below covers it). -/
def slopeSelect (xs ys xw yw : List ℚ) : Option ℚ :=
  if distinctCount xw < 2 then
    if 2 ≤ distinctCount xs then some (polyfit1 xs ys).1 else none
  else some (polyfit1 xw yw).1

/-- Window extraction of slope_at_point: lo = max(0, idx - window) via
truncated subtraction, hi = min(len, idx + window + 1), and the slices
xs[lo:hi], ys[lo:hi]. -/
def slopeWindow (xs ys : List ℚ) (idx window : ℕ) : Option ℚ :=
  slopeSelect xs ys
    ((xs.drop (idx - window)).take
      (min xs.length (idx + window + 1) - (idx - window)))
    ((ys.drop (idx - window)).take
      (min xs.length (idx + window + 1) - (idx - window)))

/-- Body of slope_at_point on the sorted pairs: index of the nearest x
to x0 by np.argmin(np.abs(xs - x0)), then the windowed selection. -/
def slopeCore (s : List (ℚ × ℚ)) (x0 : ℚ) (window : ℕ) : Option ℚ :=
  slopeWindow (s.map Prod.fst) (s.map Prod.snd)
    (argminIdxQ ((s.map Prod.fst).map (fun v => |v - x0|))) window

/-- Model of slope_at_point (src/main.py lines 46-81) on finite data,
which is how the application calls it (after the finiteness filter).
Returns none where the source returns NaN. -/
def slope_at_pointQ (x y : List ℚ) (x0 : ℚ) (window : ℕ) : Option ℚ :=
  if x.length < 2 then none
  else slopeCore (sortPairsQ (x.zip y)) x0 window

/-- Fallback ladder as the claim words it: fit the window if its x
values contain at least 2 distinct values; otherwise widen to the full
array if that has at least 2 distinct x values; otherwise the slope is
undefined (NaN, modelled as none). -/
def C1Fit (s wP : List (ℚ × ℚ)) (r : Option ℚ) : Prop :=
  (hasTwoDistinct (wP.map Prod.fst) →
    ∃ m, r = some m ∧ isLSQSlope wP m) ∧
  (¬ hasTwoDistinct (wP.map Prod.fst) → hasTwoDistinct (s.map Prod.fst) →
    ∃ m, r = some m ∧ isLSQSlope s m) ∧
  (¬ hasTwoDistinct (wP.map Prod.fst) → ¬ hasTwoDistinct (s.map Prod.fst) →
    r = none)

/-- Specification of the windowed local slope estimate on the sorted
sample list s: some index i of an x value nearest to x0 (any earlier
index is strictly farther, so ties break to the first occurrence in
sorted order), and a window holding exactly the indices within 3 of i
that are in bounds, drive the fallback ladder to the result r. -/
def C1SpecOn (s : List (ℚ × ℚ)) (x0 : ℚ) (r : Option ℚ) : Prop :=
  ∃ i, i < s.length ∧
    (∀ j, j < s.length →
      |(s.getD i (0, 0)).1 - x0| ≤ |(s.getD j (0, 0)).1 - x0|) ∧
    (∀ j, j < i →
      |(s.getD i (0, 0)).1 - x0| < |(s.getD j (0, 0)).1 - x0|) ∧
    ∃ w : List ℕ, w.Nodup ∧
      (∀ j, j ∈ w ↔ (j < s.length ∧ i ≤ j + 3 ∧ j ≤ i + 3)) ∧
      C1Fit s (w.map (fun j => s.getD j (0, 0))) r

/-- Specification of the claim for the estimator on raw input (x, y):
the samples are considered in x-sorted order. -/
def C1Spec (x y : List ℚ) (x0 : ℚ) (r : Option ℚ) : Prop :=
  C1SpecOn (sortPairsQ (x.zip y)) x0 r

theorem slopeSelect_C1Fit (s : List (ℚ × ℚ)) (lo k : ℕ)
    (hk : lo + k ≤ s.length) :
    C1Fit s ((s.drop lo).take k)
      (slopeSelect (s.map Prod.fst) (s.map Prod.snd)
        (((s.map Prod.fst).drop lo).take k)
        (((s.map Prod.snd).drop lo).take k)) := by
  have hfst : ((s.map Prod.fst).drop lo).take k =
      ((s.drop lo).take k).map Prod.fst := by
    rw [List.map_take, List.map_drop]
  have hsnd : ((s.map Prod.snd).drop lo).take k =
      ((s.drop lo).take k).map Prod.snd := by
    rw [List.map_take, List.map_drop]
  rw [hfst, hsnd]
  set P := (s.drop lo).take k with hP
  unfold C1Fit
  refine ⟨?_, ?_, ?_⟩
  · intro hW
    have hcond : ¬ (distinctCount (P.map Prod.fst) < 2) := by
      rw [distinctCount_lt_two_iff]
      exact not_not_intro hW
    unfold slopeSelect
    rw [if_neg hcond]
    exact ⟨(polyfit1 (P.map Prod.fst) (P.map Prod.snd)).1, rfl,
      (polyfit1 (P.map Prod.fst) (P.map Prod.snd)).2,
      (polyfit1_normalEqs P hW).1, (polyfit1_normalEqs P hW).2⟩
  · intro hnW hF
    have hcond : distinctCount (P.map Prod.fst) < 2 :=
      (distinctCount_lt_two_iff _).mpr hnW
    have hcond2 : 2 ≤ distinctCount (s.map Prod.fst) :=
      (two_le_distinctCount_iff _).mpr hF
    unfold slopeSelect
    rw [if_pos hcond, if_pos hcond2]
    exact ⟨(polyfit1 (s.map Prod.fst) (s.map Prod.snd)).1, rfl,
      (polyfit1 (s.map Prod.fst) (s.map Prod.snd)).2,
      (polyfit1_normalEqs s hF).1, (polyfit1_normalEqs s hF).2⟩
  · intro hnW hnF
    have hcond : distinctCount (P.map Prod.fst) < 2 :=
      (distinctCount_lt_two_iff _).mpr hnW
    have hcond2 : ¬ 2 ≤ distinctCount (s.map Prod.fst) := by
      rw [two_le_distinctCount_iff]
      exact hnF
    unfold slopeSelect
    rw [if_pos hcond, if_neg hcond2]

theorem slopeCore_meets_spec (s : List (ℚ × ℚ)) (x0 : ℚ)
    (h2 : 2 ≤ s.length) : C1SpecOn s x0 (slopeCore s x0 3) := by
  unfold C1SpecOn
  have hxslen : (s.map Prod.fst).length = s.length := List.length_map s Prod.fst
  set dl := (s.map Prod.fst).map (fun v => |v - x0|) with hdl_def
  have hdlen : dl.length = s.length := by
    rw [hdl_def, List.length_map, hxslen]
  have hdne : dl ≠ [] := by
    intro hnil
    rw [hnil] at hdlen
    simp only [List.length_nil] at hdlen
    omega
  set idx := argminIdxQ dl with hidx_def
  have hilt : idx < s.length := by
    rw [← hdlen]
    exact argminIdxQ_lt_length dl hdne
  have hdval : ∀ j, j < s.length →
      dl.getD j 0 = |(s.getD j (0, 0)).1 - x0| := by
    intro j hj
    rw [hdl_def]
    rw [getD_map' (fun v => |v - x0|) (s.map Prod.fst) j
      (by rw [hxslen]; exact hj) 0 0]
    rw [getD_map' Prod.fst s j hj (0, 0) 0]
  set lo := idx - 3 with hlo_def
  set hiB := min (s.map Prod.fst).length (idx + 3 + 1) with hhi_def
  have hhi_eq : hiB = min s.length (idx + 4) := by rw [hhi_def, hxslen]
  have hhile : hiB ≤ s.length := by rw [hhi_eq]; exact min_le_left _ _
  have hhir : hiB ≤ idx + 4 := by rw [hhi_eq]; exact min_le_right _ _
  have hiin : idx < hiB := by
    rw [hhi_eq]
    exact lt_min_iff.mpr ⟨hilt, by omega⟩
  have hlole : lo ≤ idx := by rw [hlo_def]; omega
  have hkle : lo + (hiB - lo) ≤ s.length := by omega
  refine ⟨idx, hilt, ?_, ?_, ?_⟩
  · intro j hj
    have h1 := argminIdxQ_le dl hdne j (by rw [hdlen]; exact hj) 0
    rw [← hidx_def] at h1
    rw [hdval idx hilt, hdval j hj] at h1
    exact h1
  · intro j hj
    have hjn : j < s.length := lt_trans hj hilt
    have hj' : j < argminIdxQ dl := by rw [← hidx_def]; exact hj
    have h1 := argminIdxQ_lt_of_earlier dl hdne j hj' 0
    rw [← hidx_def] at h1
    rw [hdval idx hilt, hdval j hjn] at h1
    exact h1
  · refine ⟨List.range' lo (hiB - lo), nodup_range'_one _ _, ?_, ?_⟩
    · intro j
      rw [mem_range'_iff]
      constructor
      · rintro ⟨hj1, hj2⟩
        have hj2' : j < hiB := by omega
        have hj3 : j < s.length := lt_of_lt_of_le hj2' hhile
        exact ⟨hj3, by omega, by omega⟩
      · rintro ⟨hjn, hj1, hj2⟩
        have hjh : j < hiB := by
          rw [hhi_eq]
          exact lt_min_iff.mpr ⟨hjn, by omega⟩
        exact ⟨by omega, by omega⟩
    · have hwP : (List.range' lo (hiB - lo)).map (fun j => s.getD j (0, 0)) =
          (s.drop lo).take (hiB - lo) :=
        (drop_take_eq_map_range' s lo (hiB - lo) (0, 0) hkle).symm
      rw [hwP]
      have hslope : slopeCore s x0 3 =
          slopeSelect (s.map Prod.fst) (s.map Prod.snd)
            (((s.map Prod.fst).drop lo).take (hiB - lo))
            (((s.map Prod.snd).drop lo).take (hiB - lo)) := rfl
      rw [hslope]
      exact slopeSelect_C1Fit s lo (hiB - lo) hkle

/-- C1: on any input with at least 2 samples, the local slope estimator
works on the samples sorted by ascending x (a permutation of the
input), picks the first sorted index whose x value is nearest to x0,
takes the window of up to 3 sorted neighbours on each side clamped at
the bounds, widens to the full array when the window carries fewer than
2 distinct x values, returns NaN (none) when the full array still has
fewer than 2 distinct x values, and otherwise returns a slope
satisfying the least-squares normal equations over the selected
points. -/
theorem slope_at_point_meets_spec (x y : List ℚ) (x0 : ℚ)
    (h2 : 2 ≤ x.length) (hlen : x.length = y.length) :
    List.Perm (sortPairsQ (x.zip y)) (x.zip y) ∧
    (sortPairsQ (x.zip y)).Pairwise (fun p q => p.1 ≤ q.1) ∧
    C1Spec x y x0 (slope_at_pointQ x y x0 3) := by
  refine ⟨perm_sortPairsQ _, sorted_sortPairsQ _, ?_⟩
  unfold C1Spec
  have hzipl : (x.zip y).length = x.length := by
    rw [List.length_zip, ← hlen, min_self]
  have hsl : (sortPairsQ (x.zip y)).length = x.length := by
    unfold sortPairsQ
    rw [length_isortBy, hzipl]
  have hr : slope_at_pointQ x y x0 3 = slopeCore (sortPairsQ (x.zip y)) x0 3 := by
    unfold slope_at_pointQ
    rw [if_neg (not_lt.mpr h2)]
  rw [hr]
  exact slopeCore_meets_spec _ x0 (by rw [hsl]; exact h2)

/-- Concrete instance of the C1 theorem with its hypotheses
discharged. -/
theorem slope_at_point_meets_spec_witness :
    C1Spec [0, 1, 2, 3] [0, 1, 2, 3] (3 / 2)
      (slope_at_pointQ [0, 1, 2, 3] [0, 1, 2, 3] (3 / 2) 3) :=
  (slope_at_point_meets_spec [0, 1, 2, 3] [0, 1, 2, 3] (3 / 2)
    (by decide) rfl).2.2

/-- NumPy argsort modelled at the double level: sort the index range by
the value at each index, with NaN ordered last as NumPy does.  Only the
length and the membership of the returned index list matter to the
claims below. -/
def argsortF (x : List FVal) : List ℕ :=
  isortBy (fun i j => fleSort (x.getD i .nan) (x.getD j .nan))
    (List.range x.length)

theorem argsortF_length (x : List FVal) : (argsortF x).length = x.length := by
  unfold argsortF
  rw [length_isortBy, List.length_range]

theorem argsortF_mem_lt (x : List FVal) (i : ℕ) (h : i ∈ argsortF x) :
    i < x.length := by
  unfold argsortF at h
  rw [mem_isortBy, List.mem_range] at h
  exact h

/-- NumPy fancy indexing y[order]: fails with an index error when an
index is out of range, as NumPy does when the two parallel arrays have
different lengths. -/
def fancyIndex (l : List FVal) : List ℕ → Except String (List FVal)
  | [] => .ok []
  | i :: t =>
    if h : i < l.length then
      match fancyIndex l t with
      | .ok r => .ok (l.get ⟨i, h⟩ :: r)
      | .error m => .error m
    else .error "index out of bounds"

theorem fancyIndex_ok (l : List FVal) (idxs : List ℕ)
    (h : ∀ i ∈ idxs, i < l.length) :
    ∃ r, fancyIndex l idxs = .ok r ∧ r.length = idxs.length := by
  induction idxs with
  | nil => exact ⟨[], rfl, rfl⟩
  | cons i t ih =>
    have hi : i < l.length := h i (by simp)
    obtain ⟨r, hr, hrl⟩ := ih (fun j hj => h j (by simp [hj]))
    refine ⟨l.get ⟨i, hi⟩ :: r, ?_, by simp [hrl]⟩
    unfold fancyIndex
    rw [dif_pos hi, hr]

/-- Scan of np.argmin over doubles: keeps the first strict minimum seen
so far and stops at the first NaN, which NumPy reports as the result
when any NaN is present. -/
def argminFgo : List FVal → ℕ → ℕ → FVal → ℕ
  | [], _, bi, _ => bi
  | v :: t, pos, bi, bv =>
    if bv = .nan then bi
    else if v = .nan then pos
    else if fltB v bv then argminFgo t (pos + 1) pos v
    else argminFgo t (pos + 1) bi bv

/-- np.argmin over doubles: error on an empty array, otherwise the scan
above. -/
def argminF : List FVal → Except String ℕ
  | [] => .error "attempt to get argmin of an empty sequence"
  | v :: t => .ok (argminFgo t 1 0 v)

/-- Exact closed form of np.polyfit(xs, ys, 1) at the double level:
fails like NumPy when the input is empty or the lengths differ, and the
failure of the underlying least-squares routine on non-finite data is
modelled as an error as well (the caller catches every failure). -/
def polyfitF (xs ys : List FVal) : Except String (ℚ × ℚ) :=
  if xs.length = 0 then .error "expected non-empty vector"
  else if xs.length ≠ ys.length then .error "expected x and y to have same length"
  else if (xs.all isFiniteF ∧ ys.all isFiniteF : Bool) = false then
    .error "SVD did not converge in Linear Least Squares"
  else .ok (polyfit1 (xs.map toQ) (ys.map toQ))

/-- Distinct-value count of len(np.unique(v)) at the double level:
multiple NaN values collapse to one, as np.unique does. -/
def distinctCountF (l : List FVal) : ℕ := l.dedup.length

/-- The try/except around np.polyfit in slope_at_point: a failing fit
becomes NaN. -/
def tryPolyfitF (xs ys : List FVal) : FVal :=
  match polyfitF xs ys with
  | .ok (m, _) => .fin m
  | .error _ => .nan

/-- Window slicing and fallback ladder of slope_at_point at the double
level (the part of the body below the argmin, which raises no
exception: the possibly-failing polyfit call sits behind its
try/except). -/
def slopeTailF (xs ys : List FVal) (idx window : ℕ) : FVal :=
  let lo := idx - window
  let hi := min xs.length (idx + window + 1)
  let xw := (xs.drop lo).take (hi - lo)
  let yw := (ys.drop lo).take (hi - lo)
  if distinctCountF xw < 2 then
    if 2 ≤ distinctCountF xs then tryPolyfitF xs ys
    else .nan
  else tryPolyfitF xw yw

/-- Model of slope_at_point (src/main.py lines 46-81) over arbitrary
double data, with every library call that can raise modelled in the
Except monad, so that totality of the source function is a theorem and
not a typing artefact. -/
def slopeAtPointE (x y : List FVal) (x0 : FVal) (window : ℕ) :
    Except String FVal :=
  if x.length < 2 then .ok .nan
  else
    match fancyIndex x (argsortF x) with
    | .error m => .error m
    | .ok xs =>
      match fancyIndex y (argsortF x) with
      | .error m => .error m
      | .ok ys =>
        match argminF (xs.map (fun v => fabs (fsub v x0))) with
        | .error m => .error m
        | .ok idx => .ok (slopeTailF xs ys idx window)

/-- C10: the local slope estimator is total.  On any pair of
equal-length double arrays, including empty, unsorted and non-finite
data, slope_at_point returns a double and never propagates an
exception; in particular a too-short input yields NaN directly. -/
theorem slopeAtPointE_total (x y : List FVal) (hlen : x.length = y.length)
    (x0 : FVal) (window : ℕ) :
    (∃ v, slopeAtPointE x y x0 window = .ok v) ∧
    (x.length < 2 → slopeAtPointE x y x0 window = .ok .nan) := by
  constructor
  · unfold slopeAtPointE
    by_cases hshort : x.length < 2
    · rw [if_pos hshort]
      exact ⟨.nan, rfl⟩
    · rw [if_neg hshort]
      obtain ⟨xs, hxs, hxsl⟩ :=
        fancyIndex_ok x (argsortF x) (fun i hi => argsortF_mem_lt x i hi)
      obtain ⟨ys, hys, hysl⟩ :=
        fancyIndex_ok y (argsortF x)
          (fun i hi => hlen ▸ argsortF_mem_lt x i hi)
      rw [hxs, hys]
      dsimp only
      have hxsl' : xs.length = x.length := by rw [hxsl, argsortF_length]
      have hne : xs.map (fun v => fabs (fsub v x0)) ≠ [] := by
        intro hnil
        have hlen0 : xs.length = 0 := by
          have := congrArg List.length hnil
          simpa using this
        rw [hxsl'] at hlen0
        omega
      rcases hml : xs.map (fun v => fabs (fsub v x0)) with _ | ⟨v, t⟩
      · exact absurd hml hne
      · exact ⟨slopeTailF xs ys (argminFgo t 1 0 v) window, rfl⟩
  · intro hshort
    unfold slopeAtPointE
    rw [if_pos hshort]

/-- Concrete instance of the C10 theorem with its hypothesis
discharged, on unsorted data containing NaN and infinities. -/
theorem slopeAtPointE_total_witness :
    ∃ v, slopeAtPointE [.nan, .fin 1, .inf] [.fin 0, .ninf, .nan]
      (.fin 2) 3 = .ok v :=
  (slopeAtPointE_total [.nan, .fin 1, .inf] [.fin 0, .ninf, .nan]
    rfl (.fin 2) 3).1

/-- Value of a Python expression over the restricted namespace: a
scalar double, a NumPy vector of doubles, or a non-numeric object (a
function of the namespace or the np module handle referenced without a
call), which only arithmetic rejects. -/
inductive PyVal where
  | scalar (v : FVal)
  | vec (l : List FVal)
  | callable (n : String)
deriving DecidableEq

/-- Post-parse abstract syntax of the arithmetic expressions accepted
by safe_eval_expression: literals, names, unary minus, binary
operators, and calls of named functions with one or two arguments.
The caret rewrite of the source happens on the string before parsing
and is invisible at this level. -/
inductive PyExpr where
  | num (q : ℚ)
  | name (n : String)
  | neg (a : PyExpr)
  | add (a b : PyExpr)
  | sub (a b : PyExpr)
  | mul (a b : PyExpr)
  | div (a b : PyExpr)
  | pow (a b : PyExpr)
  | call1 (n : String) (a : PyExpr)
  | call2 (n : String) (a b : PyExpr)
deriving DecidableEq

/-- Entry of the evaluation namespace. -/
inductive NSEntry where
  | value (v : PyVal)
  | fn1 (f : FVal → FVal)
  | fn2 (f : FVal → FVal → FVal)
  | npHandle

/-- Interpretations of the mathematical library functions, whose finite
values are transcendental and hence not exactly representable: the
theorems below hold for every interpretation, so in particular for the
true NumPy semantics.  powS is the Python scalar power operator, which
can raise (for example a complex result is rejected downstream); powV
is the elementwise NumPy power operator, which is total. -/
structure FuncInterp where
  fsin : FVal → FVal
  fcos : FVal → FVal
  ftan : FVal → FVal
  fasin : FVal → FVal
  facos : FVal → FVal
  fatan : FVal → FVal
  fsinh : FVal → FVal
  fcosh : FVal → FVal
  ftanh : FVal → FVal
  fexp : FVal → FVal
  flog : FVal → FVal
  flog10 : FVal → FVal
  fsqrt : FVal → FVal
  fabsF : FVal → FVal
  ffloor : FVal → FVal
  fceil : FVal → FVal
  fpow : FVal → FVal → FVal
  farctan2 : FVal → FVal → FVal
  powS : FVal → FVal → Except String FVal
  powV : FVal → FVal → FVal

/-- The double nearest pi, the exact value of np.pi. -/
def piQ : ℚ := 884279719003555 / 281474976710656

/-- The double nearest e, the exact value of np.e. -/
def eQ : ℚ := 6121026514868073 / 2251799813685248

/-- The restricted namespace of safe_eval_expression (src/main.py
lines 20-37), keyed exactly as in the source dictionary. -/
def allowedNS (I : FuncInterp) (xv : List FVal) : List (String × NSEntry) :=
  [("x", .value (.vec xv)),
   ("pi", .value (.scalar (.fin piQ))),
   ("e", .value (.scalar (.fin eQ))),
   ("sin", .fn1 I.fsin), ("cos", .fn1 I.fcos), ("tan", .fn1 I.ftan),
   ("asin", .fn1 I.fasin), ("acos", .fn1 I.facos), ("atan", .fn1 I.fatan),
   ("sinh", .fn1 I.fsinh), ("cosh", .fn1 I.fcosh), ("tanh", .fn1 I.ftanh),
   ("exp", .fn1 I.fexp), ("log", .fn1 I.flog), ("log10", .fn1 I.flog10),
   ("sqrt", .fn1 I.fsqrt), ("abs", .fn1 I.fabsF),
   ("floor", .fn1 I.ffloor), ("ceil", .fn1 I.fceil),
   ("pow", .fn2 I.fpow), ("arctan2", .fn2 I.farctan2),
   ("np", .npHandle)]

/-- The names of the namespace in source order. -/
def allowedNameList : List String :=
  ["x", "pi", "e", "sin", "cos", "tan", "asin", "acos", "atan",
   "sinh", "cosh", "tanh", "exp", "log", "log10", "sqrt", "abs",
   "floor", "ceil", "pow", "arctan2", "np"]

/-- Broadcasting application of a total elementwise binary operation,
as NumPy applies operators when at least one side is an array; two
arrays of different lengths cannot be broadcast and raise. -/
def liftBin (f : FVal → FVal → FVal) : PyVal → PyVal → Except String PyVal
  | .scalar a, .scalar b => .ok (.scalar (f a b))
  | .scalar a, .vec l => .ok (.vec (l.map (fun v => f a v)))
  | .vec l, .scalar b => .ok (.vec (l.map (fun v => f v b)))
  | .vec l, .vec m =>
    if l.length = m.length then .ok (.vec (List.zipWith f l m))
    else .error "operands could not be broadcast together"
  | _, _ => .error "unsupported operand type"

/-- Division: Python scalar division by exact zero raises, NumPy
elementwise division never raises. -/
def divPy : PyVal → PyVal → Except String PyVal
  | .scalar a, .scalar b =>
    if b = .fin 0 then .error "division by zero"
    else .ok (.scalar (fdiv a b))
  | v, w => liftBin fdiv v w

/-- Power: the scalar Python operator can fail, the vectorized one is
total. -/
def powPy (I : FuncInterp) : PyVal → PyVal → Except String PyVal
  | .scalar a, .scalar b =>
    match I.powS a b with
    | .ok r => .ok (.scalar r)
    | .error m => .error m
  | v, w => liftBin I.powV v w

/-- Unary minus. -/
def negPy : PyVal → Except String PyVal
  | .scalar a => .ok (.scalar (fneg a))
  | .vec l => .ok (.vec (l.map fneg))
  | .callable _ => .error "bad operand type for unary minus"

/-- Application of a unary vectorized function to a value. -/
def applyFn1 (f : FVal → FVal) : PyVal → Except String PyVal
  | .scalar a => .ok (.scalar (f a))
  | .vec l => .ok (.vec (l.map f))
  | .callable _ => .error "unsupported ufunc argument"

/-- Evaluation of an expression against a namespace, the model of the
restricted eval call at src/main.py line 39: names resolve only
through the supplied namespace (builtins are empty), every failure is
an error value, and Python resolves a call target before its
arguments. -/
def evalE (I : FuncInterp) (ns : List (String × NSEntry)) :
    PyExpr → Except String PyVal
  | .num q => .ok (.scalar (.fin q))
  | .name n =>
    match ns.lookup n with
    | none => .error ("name is not defined: " ++ n)
    | some (.value v) => .ok v
    | some (.fn1 _) => .ok (.callable n)
    | some (.fn2 _) => .ok (.callable n)
    | some .npHandle => .ok (.callable n)
  | .neg a =>
    match evalE I ns a with
    | .error m => .error m
    | .ok v => negPy v
  | .add a b =>
    match evalE I ns a with
    | .error m => .error m
    | .ok v =>
      match evalE I ns b with
      | .error m => .error m
      | .ok w => liftBin fadd v w
  | .sub a b =>
    match evalE I ns a with
    | .error m => .error m
    | .ok v =>
      match evalE I ns b with
      | .error m => .error m
      | .ok w => liftBin fsub v w
  | .mul a b =>
    match evalE I ns a with
    | .error m => .error m
    | .ok v =>
      match evalE I ns b with
      | .error m => .error m
      | .ok w => liftBin fmul v w
  | .div a b =>
    match evalE I ns a with
    | .error m => .error m
    | .ok v =>
      match evalE I ns b with
      | .error m => .error m
      | .ok w => divPy v w
  | .pow a b =>
    match evalE I ns a with
    | .error m => .error m
    | .ok v =>
      match evalE I ns b with
      | .error m => .error m
      | .ok w => powPy I v w
  | .call1 n a =>
    match ns.lookup n with
    | none => .error ("name is not defined: " ++ n)
    | some (.fn1 f) =>
      match evalE I ns a with
      | .error m => .error m
      | .ok v => applyFn1 f v
    | some (.fn2 _) => .error "missing required positional argument"
    | some (.value _) => .error "object is not callable"
    | some .npHandle => .error "module object is not callable"
  | .call2 n a b =>
    match ns.lookup n with
    | none => .error ("name is not defined: " ++ n)
    | some (.fn2 f) =>
      match evalE I ns a with
      | .error m => .error m
      | .ok v =>
        match evalE I ns b with
        | .error m => .error m
        | .ok w => liftBin f v w
    | some (.fn1 _) => .error "invalid number of arguments"
    | some (.value _) => .error "object is not callable"
    | some .npHandle => .error "module object is not callable"

/-- np.asarray(y, dtype=float): numbers pass through, a function or
module object cannot be converted and raises inside the try block. -/
def asarrayF : PyVal → Except String PyVal
  | .scalar v => .ok (.scalar v)
  | .vec l => .ok (.vec l)
  | .callable _ => .error "could not convert object to float"

/-- Model of safe_eval_expression (src/main.py lines 11-43): a parse
failure of the caret-rewritten text (modelled by the absent
post-parse tree) or any failure inside the try block becomes a single
ValueError prefixed with Invalid expression. -/
def safe_eval_expressionM (I : FuncInterp) (oe : Option PyExpr)
    (xv : List FVal) : Except String PyVal :=
  match oe with
  | none => .error "Invalid expression: invalid syntax"
  | some e =>
    match evalE I (allowedNS I xv) e with
    | .error m => .error ("Invalid expression: " ++ m)
    | .ok v =>
      match asarrayF v with
      | .error m => .error ("Invalid expression: " ++ m)
      | .ok w => .ok w

/-- Evaluation pipeline of draw_chart in equation mode: safe evaluation
followed by the shape check of src/main.py line 353, which rejects any
result that is not a vector of the same length as the domain. -/
def evalDomain (I : FuncInterp) (oe : Option PyExpr) (xv : List FVal) :
    Except String (List FVal) :=
  match safe_eval_expressionM I oe xv with
  | .error m => .error m
  | .ok (.vec l) =>
    if l.length = xv.length then .ok l
    else .error "The expression did not evaluate to a vector of y values."
  | .ok _ => .error "The expression did not evaluate to a vector of y values."

/-- An arbitrary fixed interpretation of the mathematical functions,
used to instantiate theorems at concrete inputs. -/
def trivInterp : FuncInterp where
  fsin := fun _ => .nan
  fcos := fun _ => .nan
  ftan := fun _ => .nan
  fasin := fun _ => .nan
  facos := fun _ => .nan
  fatan := fun _ => .nan
  fsinh := fun _ => .nan
  fcosh := fun _ => .nan
  ftanh := fun _ => .nan
  fexp := fun _ => .nan
  flog := fun _ => .nan
  flog10 := fun _ => .nan
  fsqrt := fun _ => .nan
  fabsF := fun _ => .nan
  ffloor := fun _ => .nan
  fceil := fun _ => .nan
  fpow := fun _ _ => .nan
  farctan2 := fun _ _ => .nan
  powS := fun _ _ => .ok .nan
  powV := fun _ _ => .nan

theorem lookup_eq_none_of_not_mem (l : List (String × NSEntry)) (n : String)
    (h : n ∉ l.map Prod.fst) : l.lookup n = none := by
  induction l with
  | nil => rfl
  | cons p t ih =>
    obtain ⟨k, v⟩ := p
    simp only [List.map_cons, List.mem_cons] at h
    push_neg at h
    have hbeq : (n == k) = false := beq_eq_false_iff_ne.mpr h.1
    simp [List.lookup, hbeq, ih h.2]

/-- C2 counterexample: the namespace registers the binary arctangent
under the name arctan2, not atan2, so the lookup of atan2 fails and an
expression referencing atan2 fails on the concrete input vector [0]
instead of succeeding as the claim states. -/
theorem atan2_not_in_namespace :
    (allowedNS trivInterp [.fin 0]).lookup "atan2" = none ∧
    ∃ m, evalDomain trivInterp
      (some (.call2 "atan2" (.name "x") (.name "x"))) [.fin 0] =
        .error m := by
  exact ⟨rfl, ⟨_, rfl⟩⟩

/-- C2 (amended): the namespace resolves exactly the variable x, the
constants pi and e, the sixteen unary functions, the binary functions
pow and arctan2 (arctan2, not atan2), and the restricted NumPy handle;
an expression calling arctan2 succeeds on every input vector, and any
name outside the list fails to resolve. -/
theorem allowedNS_names_exact (I : FuncInterp) (xv : List FVal) :
    ((allowedNS I xv).map Prod.fst = allowedNameList) ∧
    (∀ v : List FVal, ∃ r, evalDomain I
      (some (.call2 "arctan2" (.name "x") (.name "x"))) v = .ok r) ∧
    (∀ n, n ∉ allowedNameList →
      ∃ m, evalE I (allowedNS I xv) (.name n) = .error m) := by
  refine ⟨rfl, ?_, ?_⟩
  · intro v
    refine ⟨List.zipWith I.farctan2 v v, ?_⟩
    have hlift : liftBin I.farctan2 (.vec v) (.vec v) =
        .ok (.vec (List.zipWith I.farctan2 v v)) := by
      unfold liftBin
      dsimp only
      rw [if_pos rfl]
    have h0 : evalE I (allowedNS I v)
        (.call2 "arctan2" (.name "x") (.name "x")) =
        liftBin I.farctan2 (.vec v) (.vec v) := rfl
    have heval : safe_eval_expressionM I
        (some (.call2 "arctan2" (.name "x") (.name "x"))) v =
        .ok (.vec (List.zipWith I.farctan2 v v)) := by
      unfold safe_eval_expressionM
      dsimp only
      rw [h0, hlift]
      rfl
    have hlen : (List.zipWith I.farctan2 v v).length = v.length := by
      rw [List.length_zipWith, min_self]
    unfold evalDomain
    rw [heval]
    dsimp only
    rw [if_pos hlen]
  · intro n hn
    have hl : (allowedNS I xv).lookup n = none := by
      apply lookup_eq_none_of_not_mem
      exact hn
    refine ⟨"name is not defined: " ++ n, ?_⟩
    unfold evalE
    rw [hl]

/-- Concrete instance of the amended C2 theorem: the name os does not
resolve. -/
theorem allowedNS_names_exact_witness :
    ∃ m, evalE trivInterp (allowedNS trivInterp [FVal.fin 1])
      (.name "os") = .error m :=
  (allowedNS_names_exact trivInterp [FVal.fin 1]).2.2 "os" (by decide)

theorem evalDomain_ok_length (I : FuncInterp) (oe : Option PyExpr)
    (xv : List FVal) (l : List FVal) (h : evalDomain I oe xv = .ok l) :
    l.length = xv.length := by
  unfold evalDomain at h
  cases hs : safe_eval_expressionM I oe xv with
  | error m => rw [hs] at h; exact absurd h (by simp)
  | ok v =>
    rw [hs] at h
    cases v with
    | scalar a => exact absurd h (by simp)
    | callable n => exact absurd h (by simp)
    | vec l' =>
      dsimp only at h
      by_cases hlen : l'.length = xv.length
      · rw [if_pos hlen] at h
        have : l' = l := by
          injection h
        rw [← this]
        exact hlen
      · rw [if_neg hlen] at h
        exact absurd h (by simp)

/-- C8: the evaluation pipeline of an expression over a domain returns
either a full vector of the length of the domain or a single error and
never a partial result; a parse failure, an undeclared name, a scalar
arithmetic error (division by zero) and a shape mismatch (a scalar
constant expression) each yield the error case, while elementwise
division by zero succeeds with non-finite entries instead of
raising. -/
theorem evalDomain_error_cases (I : FuncInterp) (xv : List FVal) :
    (∀ oe, (∃ l, evalDomain I oe xv = .ok l ∧ l.length = xv.length) ∨
      (∃ m, evalDomain I oe xv = .error m)) ∧
    (∃ m, evalDomain I none xv = .error m) ∧
    (∀ n, n ∉ allowedNameList →
      ∃ m, evalDomain I (some (.name n)) xv = .error m) ∧
    (∃ m, evalDomain I (some (.div (.num 1) (.num 0))) xv = .error m) ∧
    (∃ m, evalDomain I (some (.num 5)) xv = .error m) ∧
    (evalDomain I (some (.div (.name "x") (.num 0))) xv =
      .ok (xv.map (fun a => fdiv a (.fin 0)))) := by
  refine ⟨?_, ⟨_, rfl⟩, ?_, ⟨_, rfl⟩, ⟨_, rfl⟩, ?_⟩
  · intro oe
    cases h : evalDomain I oe xv with
    | error m => exact Or.inr ⟨m, rfl⟩
    | ok l => exact Or.inl ⟨l, rfl, evalDomain_ok_length I oe xv l h⟩
  · intro n hn
    have hl : (allowedNS I xv).lookup n = none :=
      lookup_eq_none_of_not_mem _ _ hn
    have he : evalE I (allowedNS I xv) (.name n) =
        .error ("name is not defined: " ++ n) := by
      unfold evalE
      rw [hl]
    refine ⟨"Invalid expression: " ++ ("name is not defined: " ++ n), ?_⟩
    unfold evalDomain safe_eval_expressionM
    dsimp only
    rw [he]
  · have he : safe_eval_expressionM I
        (some (.div (.name "x") (.num 0))) xv =
        .ok (.vec (xv.map (fun a => fdiv a (.fin 0)))) := rfl
    unfold evalDomain
    rw [he]
    dsimp only
    rw [if_pos (by rw [List.length_map])]

/-- Concrete instance of the C8 theorem: the builtin name open does not
leak into the sandbox and produces an error. -/
theorem evalDomain_error_cases_witness :
    ∃ m, evalDomain trivInterp (some (.name "open")) [FVal.fin 1] =
      .error m :=
  (evalDomain_error_cases trivInterp [FVal.fin 1]).2.2.1 "open" (by decide)

/-- Result of the analysis steps of _plot_points: optional global fit,
centroid, slope at the centroid (none for NaN) and highlight
indices. -/
structure AnalysisResult where
  fitLine : Option (ℚ × ℚ)
  centroid : ℚ × ℚ
  slopeAtG : Option ℚ
  highlights : List ℕ
deriving DecidableEq

/-- Analysis steps of _plot_points (src/main.py lines 283-312) on the
filtered finite data: the best-fit line only in point mode with at
least 2 points, the centroid, the random highlight indices drawn from
the supplied source only when at least 2 points remain (with size
min(2, count)), and the slope at the centroid: the global fit slope
when one was computed, the windowed local estimate at Gx otherwise. -/
def analyzeCore (isPointMode : Bool) (xs ys : List ℚ)
    (choice : ℕ → ℕ → List ℕ) : AnalysisResult :=
  let fit := if isPointMode ∧ 2 ≤ xs.length then some (polyfit1 xs ys)
    else none
  let Gx := meanQ xs
  let Gy := meanQ ys
  let hl := if 2 ≤ xs.length then choice xs.length (min 2 xs.length) else []
  let mG := match fit with
    | some mb => some mb.1
    | none => slope_at_pointQ xs ys Gx 3
  ⟨fit, (Gx, Gy), mG, hl⟩

/-- Source text of the equation entry: empty, non-empty but not
parsable, or parsed to a tree. -/
inductive ExprSrc where
  | emptySrc
  | unparsable
  | parsed (e : PyExpr)
deriving DecidableEq

/-- Tag recording which title text is drawn (the formatted numbers are
carried next to it; text formatting itself is cosmetic). -/
inductive TitleTag where
  | fromXY
  | fromEquation (src : ExprSrc)
deriving DecidableEq

/-- One mutation applied to the Axes object. -/
inductive PlotCmd where
  | baseAxes
  | scatterData (pts : List (ℚ × ℚ))
  | bestFitLine (m b : ℚ)
  | gPoint (gx gy : ℚ)
  | randomPts (pts : List (ℚ × ℚ))
  | chartTitle (tag : TitleTag) (gx gy : ℚ) (mG : Option ℚ)
deriving DecidableEq

/-- Presentation state: the Axes content, the content last pushed to
the screen by canvas.draw, and the status line data (none initially,
when it shows dashes). -/
structure ChartState where
  axes : List PlotCmd
  canvas : List PlotCmd
  status : Option (ℚ × ℚ × Option ℚ)
deriving DecidableEq

/-- The boolean mask np.isfinite(x) & np.isfinite(y) of src/main.py
line 273. -/
def boolMask (x y : List FVal) : List Bool :=
  List.zipWith (fun a b => isFiniteF a && isFiniteF b) x y

/-- Boolean-mask selection arr[mask]. -/
def maskSelect : List Bool → List FVal → List FVal
  | b :: bs, v :: vs => if b then v :: maskSelect bs vs else maskSelect bs vs
  | _, _ => []

/-- Model of _plot_points (src/main.py lines 267-322) as a state
transformer: the Axes are cleared and given their base decorations
first, the finiteness filter failure raises after that clearing, and
all remaining mutations, the status line update and the canvas draw
happen in source order with no further failure point. -/
def plotPointsM (isPointMode : Bool) (tag : TitleTag)
    (choice : ℕ → ℕ → List ℕ) (S : ChartState) (x y : List FVal) :
    ChartState × Option String :=
  let S1 : ChartState := { S with axes := [.baseAxes] }
  let xs := (maskSelect (boolMask x y) x).map toQ
  let ys := (maskSelect (boolMask x y) y).map toQ
  if xs.length = 0 then (S1, some "No valid finite data to plot.")
  else
    let r := analyzeCore isPointMode xs ys choice
    let fitOps : List PlotCmd := match r.fitLine with
      | some mb => [.bestFitLine mb.1 mb.2]
      | none => []
    let randOps : List PlotCmd :=
      if 2 ≤ xs.length then
        [.randomPts (r.highlights.map (fun i => (xs.getD i 0, ys.getD i 0)))]
      else []
    let axes' := [PlotCmd.baseAxes, .scatterData (xs.zip ys)] ++ fitOps ++
      [.gPoint r.centroid.1 r.centroid.2] ++ randOps ++
      [.chartTitle tag r.centroid.1 r.centroid.2 r.slopeAtG]
    ({ axes := axes', canvas := axes',
       status := some (r.centroid.1, r.centroid.2, r.slopeAtG) }, none)

theorem maskSelect_fst (x y : List FVal) (hlen : x.length = y.length) :
    maskSelect (boolMask x y) x =
      ((x.zip y).filter
        (fun p => isFiniteF p.1 && isFiniteF p.2)).map Prod.fst := by
  induction x generalizing y with
  | nil => cases y <;> rfl
  | cons a xt ih =>
    cases y with
    | nil => simp at hlen
    | cons b yt =>
      have hlen' : xt.length = yt.length := by simpa using hlen
      simp only [boolMask, List.zipWith_cons_cons, List.zip_cons_cons,
        List.filter_cons]
      by_cases hf : (isFiniteF a && isFiniteF b) = true
      · simp only [maskSelect, hf, if_true, List.map_cons]
        rw [← ih yt hlen']
        rfl
      · have hf' : (isFiniteF a && isFiniteF b) = false :=
          Bool.not_eq_true _ ▸ (by simpa using hf)
        simp only [maskSelect, hf', Bool.false_eq_true, if_false]
        rw [← ih yt hlen']
        rfl

theorem maskSelect_snd (x y : List FVal) (hlen : x.length = y.length) :
    maskSelect (boolMask x y) y =
      ((x.zip y).filter
        (fun p => isFiniteF p.1 && isFiniteF p.2)).map Prod.snd := by
  induction x generalizing y with
  | nil => cases y <;> rfl
  | cons a xt ih =>
    cases y with
    | nil => simp at hlen
    | cons b yt =>
      have hlen' : xt.length = yt.length := by simpa using hlen
      simp only [boolMask, List.zipWith_cons_cons, List.zip_cons_cons,
        List.filter_cons]
      by_cases hf : (isFiniteF a && isFiniteF b) = true
      · simp only [maskSelect, hf, if_true, List.map_cons]
        rw [← ih yt hlen']
        rfl
      · have hf' : (isFiniteF a && isFiniteF b) = false :=
          Bool.not_eq_true _ ▸ (by simpa using hf)
        simp only [maskSelect, hf', Bool.false_eq_true, if_false]
        rw [← ih yt hlen']
        rfl

theorem maskSelect_empty_iff (x y : List FVal) (hlen : x.length = y.length) :
    maskSelect (boolMask x y) x = [] ↔
      ∀ p ∈ x.zip y, ¬(isFiniteF p.1 = true ∧ isFiniteF p.2 = true) := by
  rw [maskSelect_fst x y hlen, List.map_eq_nil_iff, List.filter_eq_nil_iff]
  constructor
  · intro h p hp hpf
    exact h p hp (by simp [hpf.1, hpf.2])
  · intro h p hp hpf
    apply h p hp
    constructor
    · exact (Bool.and_eq_true _ _ ▸ hpf).1
    · exact (Bool.and_eq_true _ _ ▸ hpf).2

/-- C7: the analyzer keeps exactly the pairs whose two coordinates are
finite, in their incoming order, and raises (EmptyDataError in the
language of the spec, a ValueError in the source) precisely when no
pair survives; in particular every input whose y values are all NaN or
Inf raises. -/
theorem plotPoints_finiteness (isPointMode : Bool) (tag : TitleTag)
    (choice : ℕ → ℕ → List ℕ) (S : ChartState) (x y : List FVal)
    (hlen : x.length = y.length) :
    ((plotPointsM isPointMode tag choice S x y).2.isSome ↔
      ∀ p ∈ x.zip y, ¬(isFiniteF p.1 = true ∧ isFiniteF p.2 = true)) ∧
    (maskSelect (boolMask x y) x =
      ((x.zip y).filter
        (fun p => isFiniteF p.1 && isFiniteF p.2)).map Prod.fst) ∧
    (maskSelect (boolMask x y) y =
      ((x.zip y).filter
        (fun p => isFiniteF p.1 && isFiniteF p.2)).map Prod.snd) := by
  refine ⟨?_, maskSelect_fst x y hlen, maskSelect_snd x y hlen⟩
  unfold plotPointsM
  dsimp only
  by_cases hz : ((maskSelect (boolMask x y) x).map toQ).length = 0
  · simp only [if_pos hz, Option.isSome_some, true_iff]
    rw [List.length_map] at hz
    exact (maskSelect_empty_iff x y hlen).mp (List.length_eq_zero.mp hz)
  · simp only [if_neg hz, Option.isSome_none, Bool.false_eq_true, false_iff]
    intro hall
    apply hz
    rw [List.length_map, (maskSelect_empty_iff x y hlen).mpr hall]
    rfl

/-- Concrete instance of the C7 theorem: two finite x values with all
y values non-finite make the plot raise. -/
theorem plotPoints_finiteness_witness :
    (plotPointsM true .fromXY (fun _ k => List.range k)
      ⟨[.baseAxes], [.baseAxes], none⟩
      [.fin 1, .fin 2] [.nan, .inf]).2.isSome :=
  ((plotPoints_finiteness true .fromXY (fun _ k => List.range k)
    ⟨[.baseAxes], [.baseAxes], none⟩
    [.fin 1, .fin 2] [.nan, .inf] rfl).1).mpr (by decide)

/-- C5 counterexample: on a filtered dataset with exactly one point the
analyzer highlights no sample at all, not min(2, 1) = 1 of them. -/
theorem single_point_highlights_empty :
    (analyzeCore true [5] [7]
      (fun _ k => List.range k)).highlights.length ≠ min 2 1 := by
  decide

/-- A random choice source behaving like rng.choice(n, size=k,
replace=False): k distinct indices below n whenever k ≤ n. -/
def WellFormedChoice (choice : ℕ → ℕ → List ℕ) : Prop :=
  ∀ n k, k ≤ n → (choice n k).length = k ∧ (choice n k).Nodup ∧
    ∀ i ∈ choice n k, i < n

/-- The deterministic stand-in choice source used for witnesses. -/
theorem wfRangeChoice : WellFormedChoice (fun _ k => List.range k) := by
  intro n k hk
  refine ⟨List.length_range k, List.nodup_range k, ?_⟩
  intro i hi
  exact lt_of_lt_of_le (List.mem_range.mp hi) hk

/-- C5 (amended): with at least 2 remaining points the analyzer
highlights exactly 2 distinct in-range samples drawn without
replacement from the filtered set; with exactly one remaining point
the highlight step is skipped entirely, so no sample is highlighted. -/
theorem analyzeCore_highlights (isPointMode : Bool) (xs ys : List ℚ)
    (choice : ℕ → ℕ → List ℕ) (hw : WellFormedChoice choice) :
    (2 ≤ xs.length →
      (analyzeCore isPointMode xs ys choice).highlights.length = 2 ∧
      (analyzeCore isPointMode xs ys choice).highlights.Nodup ∧
      ∀ i ∈ (analyzeCore isPointMode xs ys choice).highlights,
        i < xs.length) ∧
    (xs.length < 2 →
      (analyzeCore isPointMode xs ys choice).highlights = []) := by
  constructor
  · intro h2
    have hh : (analyzeCore isPointMode xs ys choice).highlights =
        choice xs.length (min 2 xs.length) := by
      unfold analyzeCore
      dsimp only
      rw [if_pos h2]
    rw [hh, min_eq_left h2]
    exact hw xs.length 2 h2
  · intro hlt
    unfold analyzeCore
    dsimp only
    rw [if_neg (not_le.mpr hlt)]

/-- Concrete instance of the amended C5 theorem with its hypotheses
discharged. -/
theorem analyzeCore_highlights_witness :
    (analyzeCore true [0, 1, 2] [3, 4, 5]
      (fun _ k => List.range k)).highlights.length = 2 :=
  ((analyzeCore_highlights true [0, 1, 2] [3, 4, 5]
    (fun _ k => List.range k) wfRangeChoice).1 (by decide)).1

/-- C9: apart from the random highlight selection the analysis is a
pure function of its inputs: the fit, the centroid and the slope at
the centroid do not depend on the random source, and neither do the
status line nor the error outcome of a plot request (expression
evaluation is a function of the expression and the input vector in
this model, so re-evaluating identical inputs is identical by
construction). -/
theorem analysis_rng_independent (isPointMode : Bool) (xs ys : List ℚ)
    (c1 c2 : ℕ → ℕ → List ℕ) (tag : TitleTag) (S : ChartState)
    (x y : List FVal) :
    (analyzeCore isPointMode xs ys c1).fitLine =
      (analyzeCore isPointMode xs ys c2).fitLine ∧
    (analyzeCore isPointMode xs ys c1).centroid =
      (analyzeCore isPointMode xs ys c2).centroid ∧
    (analyzeCore isPointMode xs ys c1).slopeAtG =
      (analyzeCore isPointMode xs ys c2).slopeAtG ∧
    (plotPointsM isPointMode tag c1 S x y).1.status =
      (plotPointsM isPointMode tag c2 S x y).1.status ∧
    (plotPointsM isPointMode tag c1 S x y).2 =
      (plotPointsM isPointMode tag c2 S x y).2 := by
  refine ⟨rfl, rfl, rfl, ?_, ?_⟩
  · unfold plotPointsM
    dsimp only
    by_cases hz : ((maskSelect (boolMask x y) x).map toQ).length = 0
    · simp only [if_pos hz]
    · simp only [if_neg hz]
      rfl
  · unfold plotPointsM
    dsimp only
    by_cases hz : ((maskSelect (boolMask x y) x).map toQ).length = 0
    · simp only [if_pos hz]
    · simp only [if_neg hz]

